import Mathlib

/-!
Shallow embedding of the RAG-Chatbot-Technical-Docs pipeline
(`split_document.py`, `generate_embeddings.py`, `visualize_embeddings.py`,
`proj1.py`): chunking, index persistence and query, visualization, and the
scripts' error handling. Text is modelled as `List Char`, vectors as
`List ℚ`, and the file system as explicit function arguments.
-/

/-- A page produced by the PDF loader: its text plus the metadata the
pipeline keeps (source path, page number). -/
structure Page where
  text : List Char
  pageNum : Nat
  source : String
deriving Repr, DecidableEq

/-- A chunk produced by the chunker: text content plus metadata
(source path, page number), as stored by `split_documents`. -/
structure Chunk where
  text : List Char
  pageNum : Nat
  source : String
deriving Repr, DecidableEq

/-- Total length (in characters, the configured measurement unit) of a list
of text pieces. -/
def sumLen : List (List Char) → Nat
  | [] => 0
  | p :: ps => p.length + sumLen ps

/-- Iteration core of `forceSplit`: the fuel argument only bounds the number
of cuts (each cut consumes at least one character when `0 < n`, so fuel
`s.length` is always enough and the fuel-exhausted branch is unreachable). -/
def forceSplitF (n : Nat) : Nat → List Char → List (List Char)
  | _, [] => []
  | 0, c :: cs => [c :: cs]
  | fuel + 1, c :: cs =>
    if n = 0 then [c :: cs]
    else (c :: cs).take n :: forceSplitF n fuel ((c :: cs).drop n)

/-- Modelled from the spec: the force-split step of the recursive splitter —
"if no separator works, it force-splits at chunk_size". Cuts the text into
consecutive pieces of `n` characters (the last one possibly shorter). -/
def forceSplit (n : Nat) (s : List Char) : List (List Char) :=
  forceSplitF n s.length s

/-- Splitting a text at every occurrence of a one-character separator,
as Python's `str.split(sep)` does (empty pieces are kept). -/
def splitOnSep (sep : Char) : List Char → List (List Char)
  | [] => [[]]
  | c :: cs =>
    if c = sep then [] :: splitOnSep sep cs
    else
      match splitOnSep sep cs with
      | [] => [[c]]
      | p :: ps => (c :: p) :: ps

/-- Modelled from the spec: the recursive splitting pass of
`RecursiveCharacterTextSplitter` — "attempts to break on the largest
available separator (paragraph, then sentence, then word, then character)
that keeps each resulting chunk's measured length ≤ chunk_size; if no
separator works, it force-splits at chunk_size". -/
def splitRecursive (seps : List Char) (n : Nat) (s : List Char) : List (List Char) :=
  if s.length ≤ n then [s]
  else
    match seps with
    | [] => forceSplit n s
    | sep :: rest => (splitOnSep sep s).flatMap (fun piece => splitRecursive rest n piece)

/-- Modelled from the spec: the window-shrinking step of the merge pass —
when a chunk is emitted, pieces are dropped from the front of the running
window until its length is at most `chunk_overlap` (and small enough that
the next piece of length `l` still fits in `chunk_size`), so that adjacent
chunks overlap by at most `chunk_overlap` characters. -/
def shrinkWindow (n ov l : Nat) : List (List Char) → List (List Char)
  | [] => []
  | c :: cs =>
    if ov < sumLen (c :: cs) ∨ (n < sumLen (c :: cs) + l ∧ 0 < sumLen (c :: cs)) then
      shrinkWindow n ov l cs
    else c :: cs

/-- Modelled from the spec: one step of the merge pass — the next piece `d`
is appended to the running window; if it would not fit in `chunk_size`, the
window is first emitted as a chunk and shrunk to the overlap. -/
def mergeStep (n ov : Nat) (st : List (List Char) × List (List Char)) (d : List Char) :
    List (List Char) × List (List Char) :=
  if n < sumLen st.2 + d.length ∧ st.2 ≠ [] then
    (st.1 ++ [st.2.flatten], shrinkWindow n ov d.length st.2 ++ [d])
  else (st.1, st.2 ++ [d])

/-- Modelled from the spec: the merge pass — small splits are greedily
recombined into chunks of measured length ≤ chunk_size, adjacent chunks
overlapping by at most chunk_overlap; empty chunks are dropped (an empty
page produces zero chunks). -/
def mergeSplits (n ov : Nat) (splits : List (List Char)) : List (List Char) :=
  let st := splits.foldl (mergeStep n ov) ([], [])
  (if st.2 = [] then st.1 else st.1 ++ [st.2.flatten]).filter (fun c => c ≠ [])

/-- The separator hierarchy: paragraph boundary, then sentence boundary,
then word boundary; below that the splitter falls back to character-level
force splitting. -/
def separators : List Char := ['\n', '.', ' ']

/-- The full chunking pipeline of `RecursiveCharacterTextSplitter` on one
page's text: recursive splitting followed by the overlap-aware merge. -/
def splitText (n ov : Nat) (s : List Char) : List (List Char) :=
  mergeSplits n ov (splitRecursive separators n s)

/-- The file system and PDF loader as the scripts see them: whether a path
names an existing file, and the page texts `PyPDFLoader` extracts from it. -/
structure FileSystem where
  isfile : String → Bool
  pages : String → List (List Char)

/-- What `split_pdf_into_chunks` communicates to its caller: the returned
value (`none` models Python's `None`) and whether `logging.error` ran. -/
structure SplitResult where
  chunks : Option (List Chunk)
  errorLogged : Bool
deriving Repr, DecidableEq

/-- `split_pdf_into_chunks` from `split_document.py`: if the file does not
exist, log an error and return `None`; otherwise load the pages and split
them into chunks, keeping source/page metadata. -/
def split_pdf_into_chunks (fs : FileSystem) (file_path : String)
    (chunk_size chunk_overlap : Nat) : SplitResult :=
  if fs.isfile file_path = false then ⟨none, true⟩
  else
    ⟨some ((fs.pages file_path).enum.flatMap (fun p =>
      (splitText chunk_size chunk_overlap p.2).map
        (fun c => ⟨c, p.1, file_path⟩))), false⟩

/-- A FAISS flat index as the scripts use it: the vector dimension and the
stored vectors in insertion order (`ntotal` is their count). Exact rational
arithmetic stands in for the float entries. -/
structure FaissIndex where
  dim : Nat
  vecs : List (List ℚ)
deriving Repr, DecidableEq

/-- The number of stored vectors, `index.ntotal`. -/
def FaissIndex.ntotal (idx : FaissIndex) : Nat := idx.vecs.length

/-- Well-formedness of an index: every stored vector has the index's
dimension. -/
def FaissIndex.wf (idx : FaissIndex) : Prop := ∀ v ∈ idx.vecs, v.length = idx.dim

/-- Modelled from the spec: the single file written by `faiss.write_index`
(persist) — the index's structure (here its dimension) together with the
raw vector data, flattened in storage order. The FAISS on-disk format
itself is opaque third-party code, absent from this repository. -/
structure IndexFile where
  dim : Nat
  data : List ℚ
deriving Repr, DecidableEq

/-- Modelled from the spec: `faiss.write_index` serializes the index's raw
vector data and structure to a single file. -/
def write_index (idx : FaissIndex) : IndexFile := ⟨idx.dim, idx.vecs.flatten⟩

/-- Iteration core of deserialization: cut the flat data back into
consecutive vectors of dimension `d`. The fuel only bounds the number of
cuts; fuel `data.length` always suffices when `0 < d`. -/
def chunkDataF (d : Nat) : Nat → List ℚ → List (List ℚ)
  | _, [] => []
  | 0, x :: xs => [x :: xs]
  | fuel + 1, x :: xs =>
    if d = 0 then [x :: xs]
    else (x :: xs).take d :: chunkDataF d fuel ((x :: xs).drop d)

/-- Modelled from the spec: `faiss.read_index` (load) — deserializes the
persisted file back into an index. -/
def read_index (f : IndexFile) : FaissIndex :=
  ⟨f.dim, chunkDataF f.dim f.data.length f.data⟩

/-- Squared Euclidean distance between two vectors: the rational model of
the index's distance computation. -/
def sqDist (u v : List ℚ) : ℚ := ((u.zip v).map (fun p => (p.1 - p.2) ^ 2)).sum

/-- Insert a scored entry into a list ordered by non-decreasing distance,
after entries of equal distance (stable: earlier identifiers first on ties). -/
def insertScored (x : Nat × ℚ) : List (Nat × ℚ) → List (Nat × ℚ)
  | [] => [x]
  | y :: ys => if x.2 < y.2 then x :: y :: ys else y :: insertScored x ys

/-- Order scored entries by non-decreasing distance (insertion sort). -/
def sortScored : List (Nat × ℚ) → List (Nat × ℚ)
  | [] => []
  | x :: xs => insertScored x (sortScored xs)

/-- Modelled from the spec: `query(vector, k)` of the vector index — score
every stored vector against the query, order the (identifier, distance)
pairs nearest-first, and return the first k. The index's internal
nearest-neighbor search is opaque third-party code, absent from this
repository. -/
def queryIndex (vecs : List (List ℚ)) (q : List ℚ) (k : Nat) : List (Nat × ℚ) :=
  (sortScored (vecs.enum.map (fun p => (p.1, sqDist p.2 q)))).take k

/-- A concrete two-vector index used to instantiate the theorems. -/
def idxEx : FaissIndex := ⟨2, [[1, 0], [0, 1]]⟩

/-- A concrete three-vector list used to instantiate the theorems. -/
def vecsEx : List (List ℚ) := [[1], [2], [3]]

/-- Modelled from the spec: the L2 norm of a vector, over the reals (the
embedder's float arithmetic is modelled exactly). -/
noncomputable def l2norm (v : List ℝ) : ℝ :=
  Real.sqrt ((v.map (fun x => x ^ 2)).sum)

/-- Modelled from the spec: normalization of an embedding vector to unit
length — every component is divided by the vector's L2 norm. -/
noncomputable def normalizeVec (v : List ℝ) : List ℝ :=
  v.map (fun x => x / l2norm v)

/-- Modelled from the spec: the embedder with `normalize_embeddings=true` —
the opaque pretrained model (`rawEncode`, third-party code absent from this
repository) maps the input text to a raw vector, which is then scaled to
unit length. -/
noncomputable def encodeNormalized (rawEncode : String → List ℝ) (t : String) : List ℝ :=
  normalizeVec (rawEncode t)

/-- The file system as the visualizer sees it: which persisted index, if
any, each path holds (`none` models a missing index file). -/
structure VizFileSystem where
  indexAt : String → Option FaissIndex

/-- `index.reconstruct_n(i, count)`: the `count` stored vectors starting at
position `i`. -/
def FaissIndex.reconstruct_n (idx : FaissIndex) (i count : Nat) : List (List ℚ) :=
  (idx.vecs.drop i).take count

/-- What a run of `visualize_embeddings.main` communicates: whether
`logging.error` ran, and — if the visualization step was reached — the
vectors handed to the (opaque) PCA projection and scatter plot. -/
structure VizOutcome where
  errorLogged : Bool
  projected : Option (List (List ℚ))
deriving Repr, DecidableEq

/-- `load_faiss_index` from `visualize_embeddings.py`: if the path does not
exist, log an error and return `None`; otherwise read and return the index.
The second component records whether `logging.error` ran. -/
def load_faiss_index (fs : VizFileSystem) (index_path : String) :
    Option FaissIndex × Bool :=
  match fs.indexAt index_path with
  | none => (none, true)
  | some idx => (some idx, false)

/-- `visualize_embeddings` from `visualize_embeddings.py`: extract the
embeddings with `index.reconstruct_n(0, index.ntotal)` and hand them to the
PCA projection and plot (opaque third-party rendering). -/
def visualize_embeddings (idx : FaissIndex) : List (List ℚ) :=
  idx.reconstruct_n 0 idx.ntotal

/-- `main` of `visualize_embeddings.py`: load the index from the hard-coded
path, return early if it is `None`, otherwise visualize. -/
def visualize_main (fs : VizFileSystem) : VizOutcome :=
  match load_faiss_index fs "embeddings/faiss_index" with
  | (none, e) => ⟨e, none⟩
  | (some idx, e) => ⟨e, some (visualize_embeddings idx)⟩

/-- A concrete file system whose index file exists but holds zero vectors. -/
def vizFsEmptyIndex : VizFileSystem := ⟨fun _ => some ⟨2, []⟩⟩

/-- A concrete file system with no index file anywhere. -/
def vizFsMissing : VizFileSystem := ⟨fun _ => none⟩

/-- A concrete file system holding the two-vector index `idxEx`. -/
def vizFsSample : VizFileSystem := ⟨fun _ => some idxEx⟩

/-- `main` of `split_document.py` as the process sees it: it calls
`split_pdf_into_chunks` on the hard-coded path with the default
configuration, ignores the result, and falls off the end — yielding process
exit code 0 on every path through the function. -/
def split_document_main_exit (fs : FileSystem) : Nat :=
  Function.const _ 0 (split_pdf_into_chunks fs "data/raw/TA-9-2024-0138_EN.pdf" 512 100)

/-- Modelled from the spec: the precondition of the PCA projection step —
fitting a 2-component linear projection needs at least 2 samples and 2
features, so sklearn's `PCA(n_components=2).fit_transform` raises
ValueError whenever `2 > min(n_samples, n_features)`, in particular on the
zero-sample array an empty index reconstructs to. -/
def pca2_fits (n_samples n_features : Nat) : Bool := 2 ≤ min n_samples n_features

/-- `main` of `visualize_embeddings.py` as the process sees it: when the
index is `None` it returns early with exit code 0; otherwise the array of
shape (ntotal, dim) reaches the PCA projection — if the projection's
precondition fails (in particular on an empty index) the raised ValueError
is unhandled and the interpreter exits non-zero (1); otherwise `main`
returns normally with exit code 0. -/
def visualize_main_exit (fs : VizFileSystem) : Nat :=
  match load_faiss_index fs "embeddings/faiss_index" with
  | (none, _) => 0
  | (some idx, _) => if pca2_fits idx.ntotal idx.dim then 0 else 1

/-- The module-level names `split_document.py` binds (its imports and its
two functions): exactly what `from split_document import NAME` can resolve. -/
def split_document_module_names : List String :=
  ["PyPDFLoader", "RecursiveCharacterTextSplitter", "os", "logging",
   "split_pdf_into_chunks", "main"]

/-- The name `generate_embeddings.py` line 7 imports from `split_document`. -/
def generate_embeddings_imported_name : String := "split_document_into_chunks"

/-- The observable outcome of running a script: a module-level import error
(raised before any pipeline work), or a completed run recording whether an
index was persisted. -/
inductive ScriptRun where
  | importError (missing : String)
  | ran (indexPersisted : Bool)
deriving Repr, DecidableEq

/-- `generate_embeddings.py` as a script: Python resolves `from
split_document import split_document_into_chunks` (line 7) before any other
work; only if the name resolves does `main()` run, chunk, embed, and
persist an index. -/
def run_generate_embeddings : ScriptRun :=
  if generate_embeddings_imported_name ∈ split_document_module_names then .ran true
  else .importError generate_embeddings_imported_name

/-- The decimal digit string of `n`, as Python's f-string renders a
non-negative int. -/
def natDigits (n : Nat) : List Char :=
  if n < 10 then [Nat.digitChar n]
  else natDigits (n / 10) ++ [Nat.digitChar (n % 10)]
termination_by n
decreasing_by exact Nat.div_lt_self (by omega) (by omega)

/-- The identifier stored by `collection.add` in `proj1.py`:
`f"doc_chunk_{i}"` for the chunk at position `i`. -/
def formatChunkId (i : Nat) : List Char :=
  ['d', 'o', 'c', '_', 'c', 'h', 'u', 'n', 'k', '_'] ++ natDigits i

/-- The numeric value of a decimal digit character. -/
def digitVal (c : Char) : Nat := c.toNat - 48

/-- Python's `int(s)` on a string of decimal digits. -/
def parseNat (s : List Char) : Nat := s.foldl (fun acc c => 10 * acc + digitVal c) 0

/-- The parsing step of `proj1.py`'s result loop,
`int(doc_id.split('_')[2])`: split the identifier on underscores and read
the third field as a number (`none` when there is no third field). -/
def parseChunkIndex (s : List Char) : Option Nat :=
  ((splitOnSep '_' s)[2]?).map parseNat

/-- A concrete file system used to instantiate the theorems: every path
names an existing file holding a single page of text. -/
def fsSample : FileSystem := ⟨fun _ => true, fun _ => [['a','b',' ','c','d',' ','e','f']]⟩

/-- A concrete file system on which no file exists. -/
def fsMissing : FileSystem := ⟨fun _ => false, fun _ => []⟩

theorem sumLen_append (a b : List (List Char)) :
    sumLen (a ++ b) = sumLen a + sumLen b := by
  induction a with
  | nil => simp [sumLen]
  | cons p ps ih => simp [sumLen, ih]; omega

theorem length_flatten (l : List (List Char)) : l.flatten.length = sumLen l := by
  induction l with
  | nil => simp [sumLen]
  | cons p ps ih => simp [sumLen, ih]

theorem forceSplitF_length_le {n : Nat} (hn : 0 < n) :
    ∀ (fuel : Nat) (s : List Char), s.length ≤ fuel →
      ∀ c ∈ forceSplitF n fuel s, c.length ≤ n := by
  intro fuel
  induction fuel with
  | zero =>
    intro s hs c hc
    have hs0 : s = [] := List.length_eq_zero.mp (Nat.le_zero.mp hs)
    subst hs0
    simp [forceSplitF] at hc
  | succ fuel ih =>
    intro s hs c hc
    match s with
    | [] => simp [forceSplitF] at hc
    | a :: as =>
      simp only [forceSplitF] at hc
      rw [if_neg (by omega)] at hc
      rcases List.mem_cons.mp hc with h | h
      · subst h
        simp [List.length_take]
      · refine ih _ ?_ c h
        simp only [List.length_drop, List.length_cons]
        simp only [List.length_cons] at hs
        omega

theorem forceSplit_length_le {n : Nat} (hn : 0 < n) (s : List Char) :
    ∀ c ∈ forceSplit n s, c.length ≤ n :=
  forceSplitF_length_le hn s.length s (Nat.le_refl _)

theorem splitRecursive_length_le {n : Nat} (hn : 0 < n) :
    ∀ (seps : List Char) (s : List Char), ∀ c ∈ splitRecursive seps n s, c.length ≤ n := by
  intro seps
  induction seps with
  | nil =>
    intro s c hc
    rw [splitRecursive] at hc
    by_cases h : s.length ≤ n
    · rw [if_pos h] at hc
      rcases List.mem_singleton.mp hc with rfl
      exact h
    · rw [if_neg h] at hc
      exact forceSplit_length_le hn s c hc
  | cons sep rest ih =>
    intro s c hc
    rw [splitRecursive] at hc
    by_cases h : s.length ≤ n
    · rw [if_pos h] at hc
      rcases List.mem_singleton.mp hc with rfl
      exact h
    · rw [if_neg h] at hc
      rcases List.mem_flatMap.mp hc with ⟨p, _, hcp⟩
      exact ih p c hcp

theorem shrinkWindow_bound (n ov l : Nat) (hl : l ≤ n) :
    ∀ cur, sumLen (shrinkWindow n ov l cur) + l ≤ n := by
  intro cur
  induction cur with
  | nil => simpa [shrinkWindow, sumLen] using hl
  | cons c cs ih =>
    rw [shrinkWindow]
    split
    · exact ih
    · rename_i h
      push_neg at h
      omega

theorem foldl_mergeStep_inv (n ov : Nat) :
    ∀ (splits : List (List Char)) (docs cur : List (List Char)),
      (∀ d ∈ splits, d.length ≤ n) →
      (∀ c ∈ docs, c.length ≤ n) → sumLen cur ≤ n →
      (∀ c ∈ (splits.foldl (mergeStep n ov) (docs, cur)).1, c.length ≤ n) ∧
        sumLen (splits.foldl (mergeStep n ov) (docs, cur)).2 ≤ n := by
  intro splits
  induction splits with
  | nil =>
    intro docs cur _ hdocs hcur
    exact ⟨hdocs, hcur⟩
  | cons d ds ih =>
    intro docs cur hs hdocs hcur
    have hd : d.length ≤ n := hs d (List.mem_cons_self d ds)
    rw [List.foldl_cons]
    rw [mergeStep]
    split
    · refine ih _ _ (fun e he => hs e (List.mem_cons_of_mem d he)) ?_ ?_
      · intro c hc
        rcases List.mem_append.mp hc with h | h
        · exact hdocs c h
        · rcases List.mem_singleton.mp h with rfl
          rw [length_flatten]
          exact hcur
      · rw [sumLen_append]
        have := shrinkWindow_bound n ov d.length hd cur
        simp [sumLen]
        omega
    · rename_i h
      push_neg at h
      refine ih _ _ (fun e he => hs e (List.mem_cons_of_mem d he)) hdocs ?_
      rw [sumLen_append]
      by_cases hc0 : cur = []
      · subst hc0
        simp [sumLen]
        omega
      · have h2 : ¬ n < sumLen cur + d.length := fun hlt => hc0 (h hlt)
        simp [sumLen]
        omega

theorem mergeSplits_length_le (n ov : Nat) (splits : List (List Char))
    (hs : ∀ d ∈ splits, d.length ≤ n) :
    ∀ c ∈ mergeSplits n ov splits, c.length ≤ n := by
  intro c hc
  have H := foldl_mergeStep_inv n ov splits [] [] hs (by simp) (by simp [sumLen])
  simp only [mergeSplits] at hc
  rw [List.mem_filter] at hc
  rcases hc with ⟨hc, _⟩
  split at hc
  · exact H.1 c hc
  · rcases List.mem_append.mp hc with h | h
    · exact H.1 c h
    · rcases List.mem_singleton.mp h with rfl
      rw [length_flatten]
      exact H.2

theorem splitText_length_le {n : Nat} (ov : Nat) (hn : 0 < n) (s : List Char) :
    ∀ c ∈ splitText n ov s, c.length ≤ n :=
  mergeSplits_length_le n ov _ (fun d hd => splitRecursive_length_le hn separators s d hd)

/-- C1: For every input text and every configuration with
chunk_size > chunk_overlap ≥ 0, every chunk produced by the chunker
(`split_pdf_into_chunks` running the `RecursiveCharacterTextSplitter`
pipeline) has measured length at most chunk_size. -/
theorem split_chunks_length_le_chunk_size (fs : FileSystem) (file_path : String)
    (chunk_size chunk_overlap : Nat) (hov : chunk_overlap < chunk_size)
    (chunks : List Chunk)
    (h : (split_pdf_into_chunks fs file_path chunk_size chunk_overlap).chunks = some chunks) :
    ∀ c ∈ chunks, c.text.length ≤ chunk_size := by
  intro c hc
  unfold split_pdf_into_chunks at h
  split at h
  · simp at h
  · simp only [Option.some.injEq] at h
    subst h
    rcases List.mem_flatMap.mp hc with ⟨p, _, hcp⟩
    rcases List.mem_map.mp hcp with ⟨t, ht, rfl⟩
    exact splitText_length_le chunk_overlap (by omega) p.2 t ht

/-- Witness for C1 at a concrete input: file system `fsSample`, path
"a.pdf", chunk_size 5, chunk_overlap 2. -/
theorem split_chunks_length_le_chunk_size_witness :
    (⟨['a','b','c','d'], 0, "a.pdf"⟩ : Chunk).text.length ≤ 5 ∧
    (⟨['c','d','e','f'], 0, "a.pdf"⟩ : Chunk).text.length ≤ 5 := by
  have H := split_chunks_length_le_chunk_size fsSample "a.pdf" 5 2 (by decide)
      [⟨['a','b','c','d'], 0, "a.pdf"⟩, ⟨['c','d','e','f'], 0, "a.pdf"⟩] (by decide)
  exact ⟨H _ (by simp), H _ (by simp)⟩

/-- C10: `split_pdf_into_chunks` returns `None` exactly when the path does
not name an existing file, logs an error in exactly that case, and returns
a list of chunks whenever the file exists; it is a total function into
`SplitResult`, so no exception reaches the caller. -/
theorem split_pdf_into_chunks_none_iff_missing (fs : FileSystem) (file_path : String)
    (chunk_size chunk_overlap : Nat) :
    ((split_pdf_into_chunks fs file_path chunk_size chunk_overlap).chunks = none
        ↔ fs.isfile file_path = false)
    ∧ ((split_pdf_into_chunks fs file_path chunk_size chunk_overlap).errorLogged = true
        ↔ fs.isfile file_path = false)
    ∧ (fs.isfile file_path = true →
        ∃ cs, (split_pdf_into_chunks fs file_path chunk_size chunk_overlap).chunks = some cs) := by
  unfold split_pdf_into_chunks
  by_cases hf : fs.isfile file_path = false
  · rw [if_pos hf]
    simp [hf]
  · rw [if_neg hf]
    have ht : fs.isfile file_path = true := by
      revert hf
      cases fs.isfile file_path <;> simp
    simp [ht]

/-- Witness for C10 at concrete inputs: on `fsMissing` the result is `None`;
on `fsSample` a chunk list is returned. -/
theorem split_pdf_into_chunks_none_iff_missing_witness :
    (split_pdf_into_chunks fsMissing "a.pdf" 512 100).chunks = none ∧
    ∃ cs, (split_pdf_into_chunks fsSample "a.pdf" 512 100).chunks = some cs :=
  ⟨(split_pdf_into_chunks_none_iff_missing fsMissing "a.pdf" 512 100).1.mpr rfl,
   (split_pdf_into_chunks_none_iff_missing fsSample "a.pdf" 512 100).2.2 rfl⟩

theorem chunkDataF_flatten {d : Nat} (hd : 0 < d) :
    ∀ (vecs : List (List ℚ)) (fuel : Nat), (∀ v ∈ vecs, v.length = d) →
      vecs.flatten.length ≤ fuel →
      chunkDataF d fuel vecs.flatten = vecs := by
  intro vecs
  induction vecs with
  | nil =>
    intro fuel _ _
    simp [chunkDataF]
  | cons v vs ih =>
    intro fuel hwf hlen
    have hv : v.length = d := hwf v (List.mem_cons_self v vs)
    rcases v with _ | ⟨x, xs⟩
    · exfalso
      simp at hv
      omega
    · have hflat : ((x :: xs) :: vs).flatten = x :: (xs ++ vs.flatten) := by simp
      cases fuel with
      | zero =>
        exfalso
        rw [hflat] at hlen
        simp at hlen
      | succ fuel =>
        rw [hflat]
        simp only [chunkDataF]
        rw [if_neg (by omega)]
        have hsplit : x :: (xs ++ vs.flatten) = (x :: xs) ++ vs.flatten := by simp
        congr 1
        · rw [hsplit, List.take_left' hv]
        · rw [hsplit, List.drop_left' hv]
          refine ih fuel (fun w hw => hwf w (List.mem_cons_of_mem _ hw)) ?_
          rw [hflat] at hlen
          simp only [List.length_cons, List.length_append] at hlen
          simp only [List.length_cons] at hv
          omega

/-- C2: persisting a built index to a file and loading it back yields an
index equal to the original, hence with identical ordered (identifier,
distance) query results for every query vector and every k. -/
theorem index_roundtrip_preserves_queries (idx : FaissIndex) (hwf : idx.wf)
    (hd : 0 < idx.dim) :
    read_index (write_index idx) = idx ∧
    ∀ q k, queryIndex (read_index (write_index idx)).vecs q k = queryIndex idx.vecs q k := by
  have h : read_index (write_index idx) = idx := by
    unfold read_index write_index
    cases idx with
    | mk d vecs =>
      simp only
      congr 1
      exact chunkDataF_flatten hd vecs _ hwf (le_refl _)
  exact ⟨h, fun q k => by rw [h]⟩

/-- Witness for C2 at a concrete input: the two-vector index `idxEx`. -/
theorem index_roundtrip_preserves_queries_witness :
    read_index (write_index idxEx) = idxEx ∧
    queryIndex (read_index (write_index idxEx)).vecs [1/2, 1/3] 1
      = queryIndex idxEx.vecs [1/2, 1/3] 1 := by
  have H := index_roundtrip_preserves_queries idxEx
    (by intro v hv; simp [idxEx] at hv; rcases hv with rfl | rfl <;> rfl)
    (by decide)
  exact ⟨H.1, H.2 [1/2, 1/3] 1⟩

theorem length_insertScored (x : Nat × ℚ) (l : List (Nat × ℚ)) :
    (insertScored x l).length = l.length + 1 := by
  induction l with
  | nil => rfl
  | cons y ys ih =>
    rw [insertScored]
    split
    · simp
    · simp [ih]

theorem length_sortScored (l : List (Nat × ℚ)) : (sortScored l).length = l.length := by
  induction l with
  | nil => rfl
  | cons x xs ih =>
    rw [sortScored, length_insertScored, ih]
    simp

/-- C3: querying an empty index returns an empty result (the query function
is total, so nothing is raised to the caller), and in general a query
returns exactly min k n results: k is clamped to the index size, so
requesting k > n yields at most n results. -/
theorem queryIndex_empty_and_clamped (vecs : List (List ℚ)) (q : List ℚ) (k : Nat) :
    (vecs = [] → queryIndex vecs q k = []) ∧
    (queryIndex vecs q k).length = min k vecs.length := by
  constructor
  · rintro rfl
    simp [queryIndex, sortScored]
  · unfold queryIndex
    rw [List.length_take, length_sortScored, List.length_map, List.enum_length]

/-- Witness for C3 at concrete inputs: the empty index, and `vecsEx` (three
vectors) queried with k = 1000. -/
theorem queryIndex_empty_and_clamped_witness :
    queryIndex [] [(0 : ℚ)] 5 = [] ∧
    (queryIndex vecsEx [0, 0] 1000).length = min 1000 3 := by
  refine ⟨(queryIndex_empty_and_clamped [] [(0 : ℚ)] 5).1 rfl, ?_⟩
  have H := (queryIndex_empty_and_clamped vecsEx [0, 0] 1000).2
  simpa [vecsEx] using H

/-- C4 counterexample: at a concrete file system whose index file exists
but holds zero vectors, the visualizer logs no error and proceeds to the
projection — refuting the claim that it fails with a reported error,
without raising, whenever the loaded index holds zero vectors. -/
theorem visualize_empty_index_not_reported :
    vizFsEmptyIndex.indexAt "embeddings/faiss_index" = some ⟨2, []⟩ ∧
    (FaissIndex.mk 2 []).ntotal = 0 ∧
    (visualize_main vizFsEmptyIndex).errorLogged = false ∧
    (visualize_main vizFsEmptyIndex).projected ≠ none := by
  decide

/-- C4 (amended): the visualizer fails with a logged error, without raising,
exactly when the index file does not exist; whenever the file exists — even
when it holds zero vectors, a case the code does not check — it
reconstructs every stored vector at positions 0..ntotal-1 and hands exactly
the stored vectors to the projection. -/
theorem visualize_error_iff_index_missing (fs : VizFileSystem) :
    ((visualize_main fs).errorLogged = true
        ↔ fs.indexAt "embeddings/faiss_index" = none) ∧
    ((visualize_main fs).projected = none
        ↔ fs.indexAt "embeddings/faiss_index" = none) ∧
    (∀ idx, fs.indexAt "embeddings/faiss_index" = some idx →
      (visualize_main fs).projected = some idx.vecs ∧
      idx.reconstruct_n 0 idx.ntotal = idx.vecs) := by
  have hrec : ∀ idx : FaissIndex, idx.reconstruct_n 0 idx.ntotal = idx.vecs := by
    intro idx
    unfold FaissIndex.reconstruct_n FaissIndex.ntotal
    rw [List.drop_zero, List.take_length]
  unfold visualize_main load_faiss_index
  rcases h : fs.indexAt "embeddings/faiss_index" with _ | idx
  · simp [h]
  · simp [h, visualize_embeddings, hrec]

/-- Witness for C4 (amended) at concrete inputs: missing index file, and an
existing two-vector index. -/
theorem visualize_error_iff_index_missing_witness :
    (visualize_main vizFsMissing).errorLogged = true ∧
    (visualize_main vizFsSample).projected = some idxEx.vecs :=
  ⟨(visualize_error_iff_index_missing vizFsMissing).1.mpr rfl,
   ((visualize_error_iff_index_missing vizFsSample).2.2 idxEx rfl).1⟩

/-- C5 counterexample: with the input file missing, the `split_document.py`
entry point still exits with code 0 (the failure is only logged), and with
the persisted index file missing, the `visualize_embeddings.py` entry point
also exits with code 0 — refuting the claimed non-zero exit code on those
failures. -/
theorem exit_code_zero_despite_missing_input :
    fsMissing.isfile "data/raw/TA-9-2024-0138_EN.pdf" = false ∧
    split_document_main_exit fsMissing = 0 ∧
    vizFsMissing.indexAt "embeddings/faiss_index" = none ∧
    visualize_main_exit vizFsMissing = 0 := by
  decide

/-- C5 (amended): the process exit code is 0 on success; it is also 0 when
the input file is missing or the persisted index file is missing — those
failures are only logged and the entry points return normally — while an
existing index holding zero vectors does end in a non-zero exit code,
through the unhandled ValueError the PCA projection raises on a zero-sample
array rather than through a handled error path. -/
theorem entry_point_exit_codes (fs : FileSystem) (vfs : VizFileSystem) (idx : FaissIndex) :
    split_document_main_exit fs = 0 ∧
    (vfs.indexAt "embeddings/faiss_index" = none → visualize_main_exit vfs = 0) ∧
    (vfs.indexAt "embeddings/faiss_index" = some idx → idx.ntotal = 0 →
      visualize_main_exit vfs = 1) ∧
    (vfs.indexAt "embeddings/faiss_index" = some idx → 2 ≤ idx.ntotal → 2 ≤ idx.dim →
      visualize_main_exit vfs = 0) := by
  refine ⟨rfl, ?_, ?_, ?_⟩
  · intro h
    unfold visualize_main_exit load_faiss_index
    rw [h]
  · intro h h0
    unfold visualize_main_exit load_faiss_index
    rw [h]
    simp [pca2_fits, h0]
  · intro h h2 hd
    unfold visualize_main_exit load_faiss_index
    rw [h]
    have hfit : pca2_fits idx.ntotal idx.dim = true := by
      simp [pca2_fits]
      omega
    simp [hfit]

/-- Witness for C5 (amended) at concrete inputs: missing input file,
missing index file, an existing empty index, and an existing two-vector
index. -/
theorem entry_point_exit_codes_witness :
    split_document_main_exit fsMissing = 0 ∧
    visualize_main_exit vizFsMissing = 0 ∧
    visualize_main_exit vizFsEmptyIndex = 1 ∧
    visualize_main_exit vizFsSample = 0 :=
  ⟨(entry_point_exit_codes fsMissing vizFsMissing ⟨0, []⟩).1,
   (entry_point_exit_codes fsMissing vizFsMissing ⟨0, []⟩).2.1 rfl,
   (entry_point_exit_codes fsMissing vizFsEmptyIndex ⟨2, []⟩).2.2.1 rfl rfl,
   (entry_point_exit_codes fsMissing vizFsSample idxEx).2.2.2 rfl (by decide) (by decide)⟩

/-- C9: `generate_embeddings.py` fails at module import before doing any
work: the name it imports from `split_document` is not among the names that
module binds, so the script ends in an ImportError — it never runs the
pipeline and never builds or persists an index. -/
theorem generate_embeddings_import_fails :
    generate_embeddings_imported_name ∉ split_document_module_names ∧
    run_generate_embeddings = .importError "split_document_into_chunks" ∧
    run_generate_embeddings ≠ .ran true ∧ run_generate_embeddings ≠ .ran false := by
  decide

theorem sumsq_nonneg (v : List ℝ) : 0 ≤ (v.map (fun x => x ^ 2)).sum :=
  List.sum_nonneg (fun x hx => by
    rcases List.mem_map.mp hx with ⟨y, _, rfl⟩
    positivity)

theorem l2norm_sq (v : List ℝ) : l2norm v ^ 2 = (v.map (fun x => x ^ 2)).sum := by
  unfold l2norm
  exact Real.sq_sqrt (sumsq_nonneg v)

theorem l2norm_normalizeVec (v : List ℝ) (h : l2norm v ≠ 0) :
    l2norm (normalizeVec v) = 1 := by
  have hfun : ((fun x => x ^ 2) ∘ fun x : ℝ => x / l2norm v)
      = fun x => x ^ 2 * (l2norm v ^ 2)⁻¹ := by
    funext x
    simp only [Function.comp, div_pow, div_eq_mul_inv]
    ring
  have hsum : ((normalizeVec v).map (fun x => x ^ 2)).sum
      = (v.map (fun x => x ^ 2)).sum * (l2norm v ^ 2)⁻¹ := by
    unfold normalizeVec
    rw [List.map_map, hfun, List.sum_map_mul_right]
  have hone : ((normalizeVec v).map (fun x => x ^ 2)).sum = 1 := by
    rw [hsum, ← l2norm_sq]
    field_simp
  unfold l2norm
  rw [hone, Real.sqrt_one]

/-- C6: when normalize_embeddings is true, every vector output by the
embedder has L2 norm within 1e-4 of 1.0 — in the real-valued model the norm
is exactly 1 — for every pretrained model and every input text whose raw
encoding is not the zero vector. -/
theorem encodeNormalized_unit_norm (rawEncode : String → List ℝ) (t : String)
    (h : l2norm (rawEncode t) ≠ 0) :
    |l2norm (encodeNormalized rawEncode t) - 1| ≤ 1 / 10000 := by
  unfold encodeNormalized
  rw [l2norm_normalizeVec _ h]
  norm_num

/-- Witness for C6 at a concrete input: a raw model output of [3, 4], whose
L2 norm is 5. -/
theorem encodeNormalized_unit_norm_witness :
    |l2norm (encodeNormalized (fun _ => [3, 4]) "query") - 1| ≤ 1 / 10000 :=
  encodeNormalized_unit_norm (fun _ => [3, 4]) "query" (by
    show l2norm [3, 4] ≠ 0
    have h25 : (([3, 4] : List ℝ).map (fun x => x ^ 2)).sum = 25 := by norm_num
    unfold l2norm
    rw [h25, show (25 : ℝ) = 5 ^ 2 by norm_num, Real.sqrt_sq (by norm_num)]
    norm_num)

theorem natDigits_ne_underscore (n : Nat) : ∀ c ∈ natDigits n, c ≠ '_' := by
  induction n using Nat.strong_induction_on with
  | _ n ih =>
    intro c hc
    rw [natDigits] at hc
    split at hc
    · rename_i h
      rcases List.mem_singleton.mp hc with rfl
      interval_cases n <;> decide
    · rename_i h
      rcases List.mem_append.mp hc with h1 | h1
      · exact ih (n / 10) (Nat.div_lt_self (by omega) (by omega)) c h1
      · rcases List.mem_singleton.mp h1 with rfl
        have h10 : n % 10 < 10 := Nat.mod_lt _ (by omega)
        revert h10
        generalize n % 10 = m
        intro h10
        interval_cases m <;> decide

theorem parseNat_append_digit (ds : List Char) (c : Char) :
    parseNat (ds ++ [c]) = 10 * parseNat ds + digitVal c := by
  unfold parseNat
  rw [List.foldl_append]
  rfl

theorem digitVal_digitChar (m : Nat) (hm : m < 10) :
    digitVal (Nat.digitChar m) = m := by
  interval_cases m <;> decide

theorem parseNat_natDigits (n : Nat) : parseNat (natDigits n) = n := by
  induction n using Nat.strong_induction_on with
  | _ n ih =>
    rw [natDigits]
    split
    · rename_i h
      have e : parseNat [Nat.digitChar n] = 10 * 0 + digitVal (Nat.digitChar n) := rfl
      rw [e, digitVal_digitChar n h]
      omega
    · rename_i h
      rw [parseNat_append_digit, ih (n / 10) (Nat.div_lt_self (by omega) (by omega)),
          digitVal_digitChar _ (Nat.mod_lt _ (by omega))]
      omega

theorem splitOnSep_not_mem (sep : Char) (l : List Char) (h : sep ∉ l) :
    splitOnSep sep l = [l] := by
  induction l with
  | nil => rfl
  | cons c cs ih =>
    rw [List.mem_cons, not_or] at h
    simp only [splitOnSep]
    rw [if_neg (fun e => h.1 e.symm), ih h.2]

theorem splitOnSep_append (sep : Char) (a b : List Char) (ha : sep ∉ a) :
    splitOnSep sep (a ++ sep :: b) = a :: splitOnSep sep b := by
  induction a with
  | nil =>
    simp only [List.nil_append, splitOnSep, if_pos]
  | cons c cs ih =>
    rw [List.mem_cons, not_or] at ha
    simp only [List.cons_append, splitOnSep]
    rw [if_neg (fun e => ha.1 e.symm), List.append_eq, ih ha.2]

/-- C8: the identifier round-trip of `proj1.py` — each chunk is stored
under `doc_chunk_{i}` and a returned identifier is parsed back with
`int(doc_id.split('_')[2])`; parsing a formatted identifier recovers
exactly the positional index i, so the script looks up and prints the
originating chunk `split_docs[i]` for each hit. -/
theorem chunk_id_roundtrip (i : Nat) (docs : List (List Char)) :
    parseChunkIndex (formatChunkId i) = some i ∧
    (parseChunkIndex (formatChunkId i)).bind (fun j => docs[j]?) = docs[i]? := by
  have hmem : '_' ∉ natDigits i := fun hm => natDigits_ne_underscore i '_' hm rfl
  have hsplit : splitOnSep '_' (formatChunkId i)
      = ['d','o','c'] :: ['c','h','u','n','k'] :: [natDigits i] := by
    have e1 : formatChunkId i
        = ['d','o','c'] ++ '_' :: (['c','h','u','n','k'] ++ '_' :: natDigits i) := rfl
    rw [e1, splitOnSep_append _ _ _ (by decide), splitOnSep_append _ _ _ (by decide),
        splitOnSep_not_mem _ _ hmem]
  have h : parseChunkIndex (formatChunkId i) = some i := by
    unfold parseChunkIndex
    rw [hsplit]
    show some (parseNat (natDigits i)) = some i
    rw [parseNat_natDigits]
  exact ⟨h, by rw [h]; rfl⟩

/-- Witness for C8 at a concrete input: the identifier of chunk 12 parses
back to 12, and the lookup into a concrete chunk list hits position 12. -/
theorem chunk_id_roundtrip_witness :
    parseChunkIndex (formatChunkId 12) = some 12 :=
  (chunk_id_roundtrip 12 []).1
